import Mathlib

/-!
# Verification development for the gachix closure-replication store

Shallow embedding of the closure resolver of `src/git_store/store.rs`
(`Store::_add_closure`, `Store::add_closure`, `Store::add_single`,
`Store::get_package_from_nix_daemons`, `Store::entry_exists`,
`Store::get_package_commit_from_git_remotes`, reference naming) together
with the commit construction of `src/store.rs` (`CaCache::commit`).

Machinery the repository uses but whose source files are not part of the
source tree given here (the `GitRepo` capability layer, the `NixPath` and
`NarInfo` records, the `DynNixDaemon` lifecycle) is modelled from the
specification, as marked on each definition.

Git object ids are modelled content-addressed: an `Oid` is the content it
names, so equal contents have equal ids, matching the Git object model.
The recursion of `Store::_add_closure` (which in Rust recurses on the call
stack without any explicit bound) is embedded with an explicit `fuel`
argument counting remaining stack depth; running out of fuel models a call
that never returns and is reported as a failure.
-/

namespace Gachix

/-- Store path. Modelled from the spec (section 3 and 4.A); the source file
`nix_interface/path.rs` is not part of the given sources. A store path is
`<prefix>/<hash32>-<name>`; the resolver only uses the base-32 hash and the
name, so the model keeps exactly those. Comparison is componentwise, which
matches comparison over the full path. -/
structure NixPath where
  hash : String
  name : String
deriving DecidableEq, Repr

/-- Git signature: author name, e-mail and commit time in seconds plus
timezone offset, as built by `git2::Signature::new` in `CaCache::commit`
(`src/store.rs`). -/
structure GitSignature where
  name : String
  email : String
  seconds : Int
  offsetMinutes : Int
deriving DecidableEq, Repr

/-- Package metadata record. Modelled from the spec (sections 3 and 4.E);
the source file `nix_interface/nar_info.rs` is not part of the given
sources. The content key is the hex of the ingested tree id; since tree
ids are `Oid.tree content` in this model, the key is kept as the abstract
tree content number. The reserved compression and file-hash fields of the
source record are constants and are omitted. -/
structure NarInfo where
  storePath : NixPath
  key : Nat
  narSize : Nat
  deriver : Option NixPath
  references : List NixPath
deriving DecidableEq, Repr

/-- Git object id, content-addressed: the id is the content it names.
`tree n` is the root tree id of an ingested archive with abstract content
`n`; `blob info` is a serialized metadata blob (serialization and parsing
are mutually inverse, so the blob is kept in parsed form); `commit` is a
commit object exactly as `git2` hashes it: root tree, ordered parent list,
author and committer signatures, and message. -/
inductive Oid where
  | tree (content : Nat)
  | blob (info : NarInfo)
  | commit (tree : Oid) (parents : List Oid) (author : GitSignature)
      (committer : GitSignature) (message : Option String)

/-- `Store::get_package_ref` (`src/git_store/store.rs`): `refs/<hash>`. -/
def packageRef (hash : String) : String := "refs/" ++ hash

/-- `Store::get_result_ref` (`src/git_store/store.rs`):
`refs/<hash>/result`. -/
def resultRef (hash : String) : String := packageRef hash ++ "/result"

/-- `Store::get_narinfo_ref` (`src/git_store/store.rs`):
`refs/<hash>/narinfo`. -/
def narinfoRef (hash : String) : String := packageRef hash ++ "/narinfo"

/-- First-match association-list lookup (the model of name-keyed reference
lookup and path-keyed daemon content lookup). -/
def plookup {α β : Type} [DecidableEq α] : List (α × β) → α → Option β
  | [], _ => none
  | (k, v) :: rest, n => if k = n then some v else plookup rest n

/-- Create-or-update on an association list (the model of
`GitRepo::add_ref`, which the spec (section 4.C) defines as
create-or-update). -/
def pupsert {α β : Type} [DecidableEq α] : List (α × β) → α → β → List (α × β)
  | [], n, v => [(n, v)]
  | (k, w) :: rest, n, v =>
      if k = n then (n, v) :: rest else (k, w) :: pupsert rest n v

/-- The local Git repository: named references and the object database.
Modelled from the spec (section 4.C); the `GitRepo` source file is not part
of the given sources. Objects are content-addressed, so the object
database is just the collection of object contents written so far. -/
structure Repo where
  refs : List (String × Oid)
  objects : List Oid

/-- `GitRepo::get_oid_from_reference`. Modelled from the spec (section
4.C, `ref_oid`). -/
def Repo.lookupRef (r : Repo) (n : String) : Option Oid := plookup r.refs n

/-- `GitRepo::reference_exists`. Modelled from the spec (section 4.C,
`ref_exists`). -/
def Repo.referenceExists (r : Repo) (n : String) : Bool :=
  (r.lookupRef n).isSome

/-- `GitRepo::add_ref`. Modelled from the spec (section 4.C):
create-or-update of a named reference. -/
def Repo.addRef (r : Repo) (n : String) (o : Oid) : Repo :=
  { r with refs := pupsert r.refs n o }

/-- Writing an object into the object database (used by the models of
`GitRepo::add_nar`, `GitRepo::add_file_content` and `GitRepo::commit`).
Content-addressed object writes are idempotent by content; the model
simply records the written content. -/
def Repo.addObj (r : Repo) (o : Oid) : Repo :=
  { r with objects := o :: r.objects }

/-- The signature used for every commit: `Signature::new("gachix",
"gachix@gachix.com", &Time::new(0, 0))` from `CaCache::commit`
(`src/store.rs`), matching the spec (section 4.C): stable name, stable
e-mail, epoch-0 timestamp. -/
def fixedSig : GitSignature :=
  { name := "gachix", email := "gachix@gachix.com", seconds := 0, offsetMinutes := 0 }

/-- `GitRepo::commit(tree, parents, message)`. Modelled from the spec
(section 4.C): a fixed signature is used so commits are content-addressed
and reproducible; `CaCache::commit` in `src/store.rs` is the in-source
witness of the constants. The `now` argument is the ambient wall clock
available to the implementation; the implementation builds the signature
from `Time::new(0, 0)` and not from the clock, which the model renders by
ignoring `now`. -/
def Repo.commit (r : Repo) (now : Int) (tree : Oid) (parents : List Oid)
    (message : Option String) : Oid × Repo :=
  let c := Oid.commit tree parents fixedSig fixedSig message
  (c, r.addObj c)

/-- `Store::get_commit` (`src/git_store/store.rs`): the oid of
`refs/<hash>/result`, if that reference exists. -/
def Repo.getCommit (r : Repo) (hash : String) : Option Oid :=
  r.lookupRef (resultRef hash)

/-- `Store::entry_exists` (`src/git_store/store.rs`, lines 328-331): the
source checks only the `result` reference. -/
def entry_exists (r : Repo) (base32Hash : String) : Bool :=
  r.referenceExists (resultRef base32Hash)

section AssocLemmas

variable {α β : Type} [DecidableEq α]

theorem plookup_pupsert_self (l : List (α × β)) (n : α) (v : β) :
    plookup (pupsert l n v) n = some v := by
  induction l with
  | nil => simp [plookup, pupsert]
  | cons hd tl ih =>
      obtain ⟨k, w⟩ := hd
      by_cases h : k = n
      · simp [plookup, pupsert, h]
      · simp [plookup, pupsert, h, ih]

theorem plookup_pupsert_ne (l : List (α × β)) (n m : α) (v : β) (h : n ≠ m) :
    plookup (pupsert l n v) m = plookup l m := by
  induction l with
  | nil => simp [plookup, pupsert, h]
  | cons hd tl ih =>
      obtain ⟨k, w⟩ := hd
      by_cases hk : k = n
      · subst hk
        simp [plookup, pupsert, h]
      · simp only [pupsert, if_neg hk, plookup]
        by_cases hm : k = m
        · simp [hm]
        · simp [hm, ih]

theorem plookup_isSome_pupsert (l : List (α × β)) (n m : α) (v : β)
    (h : (plookup l m).isSome) : (plookup (pupsert l n v) m).isSome := by
  by_cases hnm : n = m
  · subst hnm
    simp [plookup_pupsert_self]
  · rwa [plookup_pupsert_ne l n m v hnm]

end AssocLemmas

/-- Per-package daemon content: the abstract archive content (which the
archive codec turns into the root tree with that content) together with
the path metadata the daemon reports for the path. Modelled from the spec
(section 4.D, `get_pathinfo` and `fetch`); the daemon wire client is an
external collaborator. -/
structure DaemonPkg where
  narContent : Nat
  narSize : Nat
  references : List NixPath
  deriver : Option NixPath
deriving DecidableEq, Repr

/-- A configured Nix daemon, as seen through the uniform capability
surface of the spec (section 4.D): `connect` succeeds iff the daemon is
reachable; `path_exists`/`get_pathinfo`/`fetch` are reads of `pkgs`.
Modelled from the spec; the `DynNixDaemon` lifecycle source is not part of
the given sources. -/
structure Daemon where
  reachable : Bool
  pkgs : List (NixPath × DaemonPkg)

/-- A configured Git remote: the references it serves. Modelled from the
spec (sections 4.C and 6, Git wire). -/
structure Remote where
  refs : List (String × Oid)

/-- The static environment of a run: the configured daemon list (in
`Store::available_daemons` order) and the configured Git remote list. -/
structure Env where
  daemons : List Daemon
  remotes : List Remote

/-- The metadata record `Store::build_narinfo` (`src/git_store/store.rs`)
assembles for a daemon-sourced package: store path, content key set to the
ingested tree id, the daemon-reported size, deriver and references. -/
def mkInfo (p : NixPath) (pd : DaemonPkg) : NarInfo :=
  { storePath := p, key := pd.narContent, narSize := pd.narSize,
    deriver := pd.deriver, references := pd.references }

/-- `Store::get_package_from_nix_daemons` (`src/git_store/store.rs`, lines
172-212). For each configured daemon in order: `connect` (a connect
failure propagates through `?` as an error, aborting the whole loop);
`path_exists` false continues to the next daemon, without a `disconnect`
call; otherwise the archive is ingested (`GitRepo::add_nar` writes the
tree object), the metadata record is built and written as a blob
(`GitRepo::add_file_content`), the daemon is disconnected, and the triple
(metadata, narinfo blob oid, package tree oid) is returned. The third
component of the result records, daemon by daemon in list order, whether
that daemon is still connected when the function returns. -/
def getPackageFromNixDaemons (repo : Repo) (p : NixPath) :
    List Daemon → Except Unit (Option (NarInfo × Oid × Oid)) × Repo × List Bool
  | [] => (.ok none, repo, [])
  | d :: rest =>
      if d.reachable = false then
        (.error (), repo, false :: rest.map fun _ => false)
      else
        match plookup d.pkgs p with
        | none =>
            let r := getPackageFromNixDaemons repo p rest
            (r.1, r.2.1, true :: r.2.2)
        | some pd =>
            let treeOid := Oid.tree pd.narContent
            let repo1 := repo.addObj treeOid
            let info := mkInfo p pd
            let blobOid := Oid.blob info
            let repo2 := repo1.addObj blobOid
            (.ok (some (info, blobOid, treeOid)), repo2,
              false :: rest.map fun _ => false)

/-- The value `Store::get_package_from_nix_daemons` resolves for a path:
an error if a daemon is unreachable before any daemon serving the path,
`none` if the (reachable prefix of the) daemon list does not serve the
path, and the serving daemon's content otherwise. This is the pure
skeleton of the loop, used to state its properties. -/
def daemonsLookup : List Daemon → NixPath → Except Unit (Option DaemonPkg)
  | [], _ => .ok none
  | d :: rest, p =>
      if d.reachable = false then .error ()
      else
        match plookup d.pkgs p with
        | some pd => .ok (some pd)
        | none => daemonsLookup rest p

theorem gp_result_eq (repo : Repo) (p : NixPath) :
    ∀ ds : List Daemon,
      (getPackageFromNixDaemons repo p ds).1 =
        match daemonsLookup ds p with
        | .error e => .error e
        | .ok none => .ok none
        | .ok (some pd) =>
            .ok (some (mkInfo p pd, Oid.blob (mkInfo p pd), Oid.tree pd.narContent))
  | [] => by simp [getPackageFromNixDaemons, daemonsLookup]
  | d :: rest => by
      by_cases h : d.reachable = false
      · simp [getPackageFromNixDaemons, daemonsLookup, h]
      · cases hl : plookup d.pkgs p with
        | none =>
            simp only [getPackageFromNixDaemons, daemonsLookup, h, if_false]
            simp [hl, gp_result_eq repo p rest]
        | some pd =>
            simp [getPackageFromNixDaemons, daemonsLookup, h, hl]

theorem gp_refs_eq (p : NixPath) :
    ∀ (ds : List Daemon) (repo : Repo),
      ((getPackageFromNixDaemons repo p ds).2.1).refs = repo.refs
  | [], repo => rfl
  | d :: rest, repo => by
      by_cases h : d.reachable = false
      · simp [getPackageFromNixDaemons, h]
      · cases hl : plookup d.pkgs p with
        | none =>
            simp only [getPackageFromNixDaemons, h, if_false]
            simp [hl, gp_refs_eq p rest repo]
        | some pd =>
            simp [getPackageFromNixDaemons, h, hl, Repo.addObj]

/-- `GitRepo::fetch(remote, "refs/<hash>/*")`. Modelled from the spec
(section 4.C): the fetch is restricted to the refspec, returns `none` when
the remote lacks matching refs and `some ()` when at least one ref was
retrieved; retrieved refs are written locally (create-or-update). -/
def fetchRefspec (repo : Repo) (rem : Remote) (h : String) : Option Unit × Repo :=
  let matching := rem.refs.filter fun e => decide (e.1 = resultRef h ∨ e.1 = narinfoRef h)
  if matching.isEmpty then (none, repo)
  else (some (), matching.foldl (fun r e => r.addRef e.1 e.2) repo)

/-- `Store::fetch_from_remote` (`src/git_store/store.rs`, lines 265-276):
fetch `refs/<hash>/*`; on a successful fetch, read the now-local commit
reference, failing (`anyhow!`) if it is still absent. -/
def fetchFromRemote (repo : Repo) (rem : Remote) (h : String) :
    Except Unit (Option Oid) × Repo :=
  match fetchRefspec repo rem h with
  | (some _, repo1) =>
      match repo1.getCommit h with
      | some oid => (.ok (some oid), repo1)
      | none => (.error (), repo1)
  | (none, repo1) => (.ok none, repo1)

/-- `Store::get_dep_ids` (`src/git_store/store.rs`, lines 278-285): read
the local narinfo blob for the hash and return its references; an absent
reference, a non-blob object or an unparsable blob is an error. In the
content-addressed model the blob oid carries the parsed record, so
serialization and parsing are the identity. -/
def getDepIds (repo : Repo) (h : String) : Except Unit (List NixPath) :=
  match repo.lookupRef (narinfoRef h) with
  | some (Oid.blob info) => .ok info.references
  | _ => .error ()

/-- Inner loop of the breadth-first walk of
`Store::get_package_commit_from_git_remotes`: for each dependency of the
popped node, if its hash is unvisited, fetch its refs from the same remote
unless both are already local (a fetch error propagates), then enqueue and
mark visited. -/
def bfsDeps (rem : Remote) :
    List NixPath → Repo → List String → List String →
      Except Unit (List String × List String) × Repo
  | [], repo, pending, visited => (.ok (pending, visited), repo)
  | dep :: rest, repo, pending, visited =>
      let dh := dep.hash
      if visited.contains dh then bfsDeps rem rest repo pending visited
      else
        if repo.referenceExists (resultRef dh) && repo.referenceExists (narinfoRef dh) then
          bfsDeps rem rest repo (pending ++ [dh]) (dh :: visited)
        else
          match fetchFromRemote repo rem dh with
          | (.error e, repo1) => (.error e, repo1)
          | (.ok _, repo1) => bfsDeps rem rest repo1 (pending ++ [dh]) (dh :: visited)

/-- Outer loop of the breadth-first walk of
`Store::get_package_commit_from_git_remotes` (`src/git_store/store.rs`,
lines 235-260). The source loop terminates because the visited set only
grows; the `gas` argument is an embedding artifact bounding the number of
loop iterations. -/
def bfsWalk (rem : Remote) :
    Nat → Repo → List String → List String → Except Unit Unit × Repo
  | 0, repo, _, _ => (.error (), repo)
  | _ + 1, repo, [], _ => (.ok (), repo)
  | gas + 1, repo, id :: pending, visited =>
      match getDepIds repo id with
      | .error e => (.error e, repo)
      | .ok deps =>
          match bfsDeps rem deps repo pending visited with
          | (.error e, repo1) => (.error e, repo1)
          | (.ok (pending1, visited1), repo1) => bfsWalk rem gas repo1 pending1 visited1

/-- First loop of `Store::get_package_commit_from_git_remotes`: try each
configured remote in order; a fetch error propagates (`?`), the first
remote that yields the commit wins and is remembered for the walk. -/
def remotesLoop (h : String) :
    List Remote → Repo → Except Unit (Option (Oid × Remote)) × Repo
  | [], repo => (.ok none, repo)
  | rem :: rest, repo =>
      match fetchFromRemote repo rem h with
      | (.error e, repo1) => (.error e, repo1)
      | (.ok (some oid), repo1) => (.ok (some (oid, rem)), repo1)
      | (.ok none, repo1) => remotesLoop h rest repo1

/-- `Store::get_package_commit_from_git_remotes` (`src/git_store/store.rs`,
lines 214-263): find the first remote serving `refs/<hash>/*`, then
breadth-first replicate the dependency refs from that same remote; the
commit oid captured before the walk is returned. -/
def getPackageCommitFromGitRemotes (env : Env) (gas : Nat) (repo : Repo)
    (p : NixPath) : Except Unit (Option Oid) × Repo :=
  match remotesLoop p.hash env.remotes repo with
  | (.error e, repo1) => (.error e, repo1)
  | (.ok none, repo1) => (.ok none, repo1)
  | (.ok (some (oid, rem)), repo1) =>
      match bfsWalk rem gas repo1 [p.hash] [p.hash] with
      | (.error e, repo2) => (.error e, repo2)
      | (.ok (), repo2) => (.ok (some oid), repo2)

/-- `Store::_add_closure` (`src/git_store/store.rs`, lines 127-170), the
per-node resolver. In order: local hit on `refs/<hash>/result`; Git
remotes (an error there propagates); daemon fallback (an error there is
collapsed to `Ok(None)` by the `let ... else` pattern); recursion into the
metadata references in order, collecting each dependency commit as a
parent (a failing recursion aborts the node before any ref is written);
commit with the package tree and the collected parents; finally write
`refs/<hash>/result` and `refs/<hash>/narinfo`. The Rust function recurses
on the call stack with no explicit bound; `fuel` counts remaining stack
depth and running out of it models a call that never returns. -/
def addClosureRec (env : Env) (now : Int) :
    Nat → Repo → NixPath → Except Unit (Option Oid) × Repo
  | 0, repo, _ => (.error (), repo)
  | fuel + 1, repo, p =>
      match repo.getCommit p.hash with
      | some c => (.ok (some c), repo)
      | none =>
          match getPackageCommitFromGitRemotes env (fuel + 1) repo p with
          | (.error e, repo1) => (.error e, repo1)
          | (.ok (some c), repo1) => (.ok (some c), repo1)
          | (.ok none, repo1) =>
              match getPackageFromNixDaemons repo1 p env.daemons with
              | (.error _, repo2, _) => (.ok none, repo2)
              | (.ok none, repo2, _) => (.ok none, repo2)
              | (.ok (some (info, blobOid, treeOid)), repo2, _) =>
                  let st := info.references.foldl (fun acc dep =>
                    match acc with
                    | (Except.ok (some parents), r) =>
                        match addClosureRec env now fuel r dep with
                        | (.ok (some c), r1) => (.ok (some (parents ++ [c])), r1)
                        | (.ok none, r1) => (Except.ok none, r1)
                        | (.error e, r1) => (.error e, r1)
                    | other => other) (Except.ok (some []), repo2)
                  match st with
                  | (.error e, repoN) => (.error e, repoN)
                  | (.ok none, repoN) => (.ok none, repoN)
                  | (.ok (some parents), repoN) =>
                      let cr := repoN.commit now treeOid parents (some p.name)
                      let repoR := (cr.2.addRef (resultRef p.hash) cr.1).addRef
                        (narinfoRef p.hash) blobOid
                      (.ok (some cr.1), repoR)

/-- One step of the dependency loop of `Store::_add_closure`: thread the
repository through `_add_closure(dep)`; a dependency that fails or is
unresolvable makes the accumulator absorbing (the source returns at that
point, leaving the state as it was at the failure). -/
def depsStep (env : Env) (now : Int) (fuel : Nat) :
    Except Unit (Option (List Oid)) × Repo → NixPath →
      Except Unit (Option (List Oid)) × Repo :=
  fun acc dep =>
    match acc with
    | (Except.ok (some parents), r) =>
        match addClosureRec env now fuel r dep with
        | (.ok (some c), r1) => (.ok (some (parents ++ [c])), r1)
        | (.ok none, r1) => (Except.ok none, r1)
        | (.error e, r1) => (.error e, r1)
    | other => other

/-- Unfolding equation for `addClosureRec` at positive fuel, phrased with
`depsStep`. -/
theorem addClosureRec_succ (env : Env) (now : Int) (fuel : Nat) (repo : Repo)
    (p : NixPath) :
    addClosureRec env now (fuel + 1) repo p =
      match repo.getCommit p.hash with
      | some c => (.ok (some c), repo)
      | none =>
          match getPackageCommitFromGitRemotes env (fuel + 1) repo p with
          | (.error e, repo1) => (.error e, repo1)
          | (.ok (some c), repo1) => (.ok (some c), repo1)
          | (.ok none, repo1) =>
              match getPackageFromNixDaemons repo1 p env.daemons with
              | (.error _, repo2, _) => (.ok none, repo2)
              | (.ok none, repo2, _) => (.ok none, repo2)
              | (.ok (some (info, blobOid, treeOid)), repo2, _) =>
                  match info.references.foldl (depsStep env now fuel)
                      (Except.ok (some []), repo2) with
                  | (.error e, repoN) => (.error e, repoN)
                  | (.ok none, repoN) => (.ok none, repoN)
                  | (.ok (some parents), repoN) =>
                      let cr := repoN.commit now treeOid parents (some p.name)
                      let repoR := (cr.2.addRef (resultRef p.hash) cr.1).addRef
                        (narinfoRef p.hash) blobOid
                      (.ok (some cr.1), repoR) := rfl

/-- `Store::add_closure` (`src/git_store/store.rs`, lines 110-125): run
`_add_closure` on the root; `Some` is success, `None` becomes the
`bail!` error, an error propagates. (The entry count it logs does not
affect the result or the state.) -/
def add_closure (env : Env) (now : Int) (fuel : Nat) (repo : Repo)
    (p : NixPath) : Except Unit Unit × Repo :=
  match addClosureRec env now fuel repo p with
  | (.ok (some _), r) => (.ok (), r)
  | (.ok none, r) => (.error (), r)
  | (.error e, r) => (.error e, r)

/-- `Store::add_single` (`src/git_store/store.rs`, lines 85-108): if
`refs/<hash>/narinfo` already exists, succeed without touching the
repository; otherwise fetch from the daemons and write the *tree* oid to
`refs/<hash>/result` and the narinfo blob oid to `refs/<hash>/narinfo`; a
daemon-step error or an unserved path becomes the `bail!` error. -/
def add_single (env : Env) (repo : Repo) (p : NixPath) : Except Unit Unit × Repo :=
  if repo.referenceExists (narinfoRef p.hash) then (.ok (), repo)
  else
    match getPackageFromNixDaemons repo p env.daemons with
    | (.ok (some (_, blobOid, treeOid)), repo1, _) =>
        (.ok (),
          (repo1.addRef (resultRef p.hash) treeOid).addRef (narinfoRef p.hash) blobOid)
    | (.ok none, repo1, _) => (.error (), repo1)
    | (.error _, repo1, _) => (.error (), repo1)

theorem resultRef_inj {a b : String} (h : resultRef a = resultRef b) : a = b := by
  unfold resultRef packageRef at h
  rw [String.ext_iff] at h
  simp only [String.data_append] at h
  exact String.ext (List.append_cancel_left (List.append_cancel_right h))

theorem narinfoRef_inj {a b : String} (h : narinfoRef a = narinfoRef b) : a = b := by
  unfold narinfoRef packageRef at h
  rw [String.ext_iff] at h
  simp only [String.data_append] at h
  exact String.ext (List.append_cancel_left (List.append_cancel_right h))

theorem resultRef_ne_narinfoRef (a b : String) : resultRef a ≠ narinfoRef b := by
  intro h
  unfold resultRef narinfoRef packageRef at h
  rw [String.ext_iff] at h
  simp only [String.data_append] at h
  have h1 := congrArg List.getLast? h
  rw [List.getLast?_append_of_ne_nil _ (by decide),
    List.getLast?_append_of_ne_nil _ (by decide)] at h1
  exact absurd h1 (by decide)

/-- Whether a resolver result is a successful commit oid. -/
def isOkSome : Except Unit (Option Oid) → Bool
  | .ok (some _) => true
  | _ => false

/-- The number of parents of the commit a resolver run produced (0 when
the run did not produce a commit). -/
def parentCount : Except Unit (Option Oid) → Nat
  | .ok (some (Oid.commit _ ps _ _ _)) => ps.length
  | _ => 0

/-- A fresh repository. -/
def emptyRepo : Repo := { refs := [], objects := [] }

/-- With an empty remote list, the Git-peer step returns `Ok(None)`
without touching the repository. -/
theorem remotes_nil (env : Env) (hrem : env.remotes = []) (gas : Nat)
    (repo : Repo) (p : NixPath) :
    getPackageCommitFromGitRemotes env gas repo p = (.ok none, repo) := by
  unfold getPackageCommitFromGitRemotes
  rw [hrem]
  rfl

/-- A repository holding a `result` reference for hash `abc` but no
`narinfo` reference. -/
def repoResultOnly : Repo := { refs := [(resultRef "abc", Oid.tree 1)], objects := [] }

/-- C3 counterexample: with only `refs/abc/result` present and
`refs/abc/narinfo` absent, `entry_exists` returns `true`, not the `false`
the claim requires when only one of the two refs exists. -/
theorem c3_entry_exists_true_with_result_only :
    entry_exists repoResultOnly "abc" = true ∧
    repoResultOnly.referenceExists (narinfoRef "abc") = false := by
  constructor <;> rfl

/-- C3 (amended): `entry_exists(H)` is true iff `refs/<H>/result` exists;
the `narinfo` reference is not consulted, so adding or lacking it does not
change the answer. -/
theorem c3_entry_exists_iff_result_ref (r : Repo) (h : String) :
    (entry_exists r h = true ↔ ∃ o, r.lookupRef (resultRef h) = some o) ∧
    ∀ o, entry_exists (r.addRef (narinfoRef h) o) h = entry_exists r h := by
  constructor
  · simp [entry_exists, Repo.referenceExists, Option.isSome_iff_exists]
  · intro o
    unfold entry_exists Repo.referenceExists Repo.lookupRef Repo.addRef
    simp only
    rw [plookup_pupsert_ne _ _ _ _ (Ne.symm (resultRef_ne_narinfoRef h h))]

/-- The package used by the C5 scenario. -/
def pC5 : NixPath := { hash := "c5", name := "pkg" }

/-- Daemon content for the C5 scenario. -/
def pdC5 : DaemonPkg := { narContent := 3, narSize := 4, references := [], deriver := none }

/-- C5 environment: an unreachable daemon first, then a working daemon
that has the path. -/
def envC5 : Env :=
  { daemons := [{ reachable := false, pkgs := [] },
                { reachable := true, pkgs := [(pC5, pdC5)] }],
    remotes := [] }

/-- The C5 environment without the unreachable daemon. -/
def envC5tail : Env :=
  { daemons := [{ reachable := true, pkgs := [(pC5, pdC5)] }], remotes := [] }

/-- C5 counterexample: with the unreachable daemon first, `add_closure`
fails even though the next daemon has the path (the same call with only
the working daemon succeeds), because `daemon.connect().await?` propagates
the connect error instead of skipping to the next daemon. -/
theorem c5_unreachable_first_daemon_fails :
    (add_closure envC5 0 3 emptyRepo pC5).1 = Except.error () ∧
    (add_closure envC5tail 0 3 emptyRepo pC5).1 = Except.ok () := by
  constructor <;> rfl

/-- C5 (amended): a connect failure on a daemon aborts the whole daemon
fallback step with an error before later daemons are consulted, leaving
the repository untouched, and the node is then treated as unresolvable
(`Ok(None)`); only a reachable daemon that reports `path_exists` false is
skipped. -/
theorem c5_connect_failure_aborts (repo : Repo) (p : NixPath) (d : Daemon)
    (rest : List Daemon) (hd : d.reachable = false) :
    (getPackageFromNixDaemons repo p (d :: rest)).1 = .error () ∧
    (getPackageFromNixDaemons repo p (d :: rest)).2.1 = repo ∧
    ∀ env : Env, env.daemons = d :: rest → env.remotes = [] →
      ∀ (now : Int) (fuel : Nat), repo.getCommit p.hash = none →
        (addClosureRec env now (fuel + 1) repo p).1 = .ok none := by
  refine ⟨?_, ?_, ?_⟩
  · simp [getPackageFromNixDaemons, hd]
  · simp [getPackageFromNixDaemons, hd]
  · intro env hds hrem now fuel hmiss
    rw [addClosureRec_succ, hmiss, remotes_nil env hrem, hds]
    simp [getPackageFromNixDaemons, hd]

/-- C5 witness: the amended statement applied to the C5 environment. -/
theorem c5_connect_failure_aborts_witness :
    ({ reachable := false, pkgs := [] } : Daemon).reachable = false ∧
    envC5.daemons = { reachable := false, pkgs := [] } ::
      [{ reachable := true, pkgs := [(pC5, pdC5)] }] ∧
    envC5.remotes = [] ∧
    emptyRepo.getCommit pC5.hash = none ∧
    (addClosureRec envC5 0 1 emptyRepo pC5).1 = .ok none :=
  ⟨rfl, rfl, rfl, rfl,
    (c5_connect_failure_aborts emptyRepo pC5 { reachable := false, pkgs := [] }
      [{ reachable := true, pkgs := [(pC5, pdC5)] }] rfl).2.2 envC5 rfl rfl 0 0 rfl⟩

/-- The package used by the C9 scenario. -/
def pC9 : NixPath := { hash := "c9", name := "pkg" }

/-- Daemon content for the C9 scenario. -/
def pdC9 : DaemonPkg := { narContent := 8, narSize := 9, references := [], deriver := none }

/-- C9 daemon list: a reachable daemon without the path, then a reachable
daemon with it. -/
def daemonsC9 : List Daemon :=
  [{ reachable := true, pkgs := [] }, { reachable := true, pkgs := [(pC9, pdC9)] }]

/-- C9 counterexample: the first daemon is connected and, because
`path_exists` is false, the loop `continue`s without `disconnect`, so when
the function returns successfully the first daemon is still connected
(`true` in the connection-state list) — not every connected daemon has
been disconnected. -/
theorem c9_skipped_daemon_stays_connected :
    (getPackageFromNixDaemons emptyRepo pC9 daemonsC9).2.2 = [true, false] ∧
    (getPackageFromNixDaemons emptyRepo pC9 daemonsC9).1 =
      .ok (some (mkInfo pC9 pdC9, Oid.blob (mkInfo pC9 pdC9), Oid.tree 8)) := by
  constructor <;> rfl

/-- C9 (amended): on the skip path (reachable daemon, `path_exists`
false) the daemon stays connected for the rest of the call, while on the
success path the serving daemon is disconnected and later daemons are
never connected. -/
theorem c9_disconnect_only_on_success (repo : Repo) (p : NixPath) (d : Daemon)
    (rest : List Daemon) (hd : d.reachable = true) :
    (plookup d.pkgs p = none →
      (getPackageFromNixDaemons repo p (d :: rest)).2.2 =
        true :: (getPackageFromNixDaemons repo p rest).2.2) ∧
    ∀ pd, plookup d.pkgs p = some pd →
      (getPackageFromNixDaemons repo p (d :: rest)).2.2 =
        false :: rest.map fun _ => false := by
  constructor
  · intro hnone
    simp [getPackageFromNixDaemons, hd, hnone]
  · intro pd hsome
    simp [getPackageFromNixDaemons, hd, hsome]

/-- C9 witness: the amended statement applied to the C9 daemon list. -/
theorem c9_disconnect_only_on_success_witness :
    ({ reachable := true, pkgs := [] } : Daemon).reachable = true ∧
    plookup ({ reachable := true, pkgs := [] } : Daemon).pkgs pC9 = none ∧
    (getPackageFromNixDaemons emptyRepo pC9 daemonsC9).2.2 =
      true :: (getPackageFromNixDaemons emptyRepo pC9
        [{ reachable := true, pkgs := [(pC9, pdC9)] }]).2.2 :=
  ⟨rfl, rfl,
    (c9_disconnect_only_on_success emptyRepo pC9 { reachable := true, pkgs := [] }
      [{ reachable := true, pkgs := [(pC9, pdC9)] }] rfl).1 rfl⟩

/-- Once the dependency loop accumulator has failed, the remaining
iterations leave it untouched (the source returns at the failure point).
-/
theorem depsFold_absorb (env : Env) (now : Int) (fuel : Nat) :
    ∀ (deps : List NixPath) (acc : Except Unit (Option (List Oid)) × Repo),
      (∀ ps, acc.1 ≠ .ok (some ps)) →
      deps.foldl (depsStep env now fuel) acc = acc
  | [], acc, _ => rfl
  | dep :: rest, acc, h => by
      obtain ⟨a, r⟩ := acc
      have hstep : depsStep env now fuel (a, r) dep = (a, r) := by
        unfold depsStep
        match a with
        | .ok (some ps) => exact absurd rfl (h ps)
        | .ok none => rfl
        | .error e => rfl
      rw [List.foldl_cons, hstep]
      exact depsFold_absorb env now fuel rest (a, r) h

/-- When the dependency loop completes with a parent list, its length is
the initial accumulator length plus one parent per reference occurrence
(duplicates included). -/
theorem depsFold_length (env : Env) (now : Int) (fuel : Nat) :
    ∀ (deps : List NixPath) (acc : Except Unit (Option (List Oid)) × Repo)
      (l0 : List Oid), acc.1 = .ok (some l0) →
      ∀ ps, (deps.foldl (depsStep env now fuel) acc).1 = .ok (some ps) →
        ps.length = l0.length + deps.length
  | [], acc, l0, h0, ps, hps => by
      rw [List.foldl_nil] at hps
      rw [h0] at hps
      cases hps
      simp
  | dep :: rest, acc, l0, h0, ps, hps => by
      obtain ⟨a, r⟩ := acc
      simp only at h0
      subst h0
      rw [List.foldl_cons] at hps
      cases hrec : addClosureRec env now fuel r dep with
      | mk a1 r1 =>
          match a1, hrec with
          | .ok (some c), hrec =>
              rw [show depsStep env now fuel (Except.ok (some l0), r) dep =
                  (Except.ok (some (l0 ++ [c])), r1) by simp [depsStep, hrec]] at hps
              have hlen := depsFold_length env now fuel rest
                (.ok (some (l0 ++ [c])), r1) (l0 ++ [c]) rfl ps hps
              simp only [List.length_append, List.length_cons, List.length_nil] at hlen ⊢
              omega
          | .ok none, hrec =>
              rw [show depsStep env now fuel (Except.ok (some l0), r) dep =
                  (Except.ok none, r1) by simp [depsStep, hrec]] at hps
              rw [depsFold_absorb env now fuel rest _ (by intro qs h; simp at h)] at hps
              simp at hps
          | .error e, hrec =>
              rw [show depsStep env now fuel (Except.ok (some l0), r) dep =
                  (Except.error e, r1) by simp [depsStep, hrec]] at hps
              rw [depsFold_absorb env now fuel rest _ (by intro qs h; simp at h)] at hps
              simp at hps

/-- The dependency used twice by the C2 scenario. -/
def pB2 : NixPath := { hash := "b2", name := "dep" }

/-- The root package of the C2 scenario, whose references list the same
dependency twice. -/
def pA2 : NixPath := { hash := "a2", name := "top" }

/-- Daemon content of the C2 dependency. -/
def pdB2 : DaemonPkg := { narContent := 21, narSize := 1, references := [], deriver := none }

/-- Daemon content of the C2 root: references `[pB2, pB2]`. -/
def pdA2 : DaemonPkg :=
  { narContent := 20, narSize := 2, references := [pB2, pB2], deriver := none }

/-- C2 environment. -/
def envC2 : Env :=
  { daemons := [{ reachable := true, pkgs := [(pA2, pdA2), (pB2, pdB2)] }],
    remotes := [] }

/-- C2 counterexample: a package whose metadata lists the same dependency
twice gets a commit with two parents (the dependency loop does not
deduplicate), not the exactly-one parent the claim requires. -/
theorem c2_duplicate_reference_two_parents :
    parentCount (addClosureRec envC2 0 2 emptyRepo pA2).1 = 2 ∧
    pdA2.references = [pB2, pB2] := by
  constructor <;> rfl

/-- C2 (amended): the parents of a daemon-sourced package commit are the
dependency commits in `metadata.references` order with one parent per
occurrence — duplicates are not elided, so the parent-list length equals
the references-list length. -/
theorem c2_parents_follow_reference_multiplicity (env : Env) (now : Int)
    (fuel : Nat) (s : Repo) (p : NixPath) (c : Oid)
    (hrem : env.remotes = [])
    (hmiss : s.getCommit p.hash = none)
    (hres : (addClosureRec env now (fuel + 1) s p).1 = .ok (some c)) :
    ∃ pd ps, daemonsLookup env.daemons p = .ok (some pd) ∧
      c = Oid.commit (Oid.tree pd.narContent) ps fixedSig fixedSig (some p.name) ∧
      ps.length = pd.references.length := by
  rw [addClosureRec_succ, hmiss, remotes_nil env hrem] at hres
  simp only at hres
  cases hg : getPackageFromNixDaemons s p env.daemons with
  | mk g1 g23 =>
      obtain ⟨g2, g3⟩ := g23
      rw [hg] at hres
      have h1 := gp_result_eq s p env.daemons
      rw [hg] at h1
      simp only at h1
      cases hdl : daemonsLookup env.daemons p with
      | error e =>
          rw [hdl] at h1
          subst h1
          simp at hres
      | ok o =>
          cases o with
          | none =>
              rw [hdl] at h1
              subst h1
              simp at hres
          | some pd =>
              rw [hdl] at h1
              subst h1
              simp only at hres
              cases hst : (mkInfo p pd).references.foldl (depsStep env now fuel)
                  (Except.ok (some []), g2) with
              | mk st1 stR =>
                  rw [hst] at hres
                  match st1, hst with
                  | .ok (some parents), hst =>
                      simp only [Repo.commit, Except.ok.injEq, Option.some.injEq] at hres
                      refine ⟨pd, parents, rfl, ?_, ?_⟩
                      · exact hres.symm
                      · have := depsFold_length env now fuel (mkInfo p pd).references
                          (Except.ok (some []), g2) [] rfl parents (by rw [hst])
                        simpa [mkInfo] using this
                  | .ok none, hst => simp at hres
                  | .error e, hst => simp at hres

/-- C2 witness: the amended statement applied to the C2 environment. -/
theorem c2_parents_follow_reference_multiplicity_witness :
    envC2.remotes = [] ∧
    emptyRepo.getCommit pA2.hash = none ∧
    (addClosureRec envC2 0 2 emptyRepo pA2).1 = .ok (some (Oid.commit (Oid.tree 20)
      [Oid.commit (Oid.tree 21) [] fixedSig fixedSig (some "dep"),
       Oid.commit (Oid.tree 21) [] fixedSig fixedSig (some "dep")]
      fixedSig fixedSig (some "top"))) ∧
    ∃ pd ps, daemonsLookup envC2.daemons pA2 = .ok (some pd) ∧
      (Oid.commit (Oid.tree 20)
        [Oid.commit (Oid.tree 21) [] fixedSig fixedSig (some "dep"),
         Oid.commit (Oid.tree 21) [] fixedSig fixedSig (some "dep")]
        fixedSig fixedSig (some "top")) =
        Oid.commit (Oid.tree pd.narContent) ps fixedSig fixedSig (some pA2.name) ∧
      ps.length = pd.references.length :=
  ⟨rfl, rfl, rfl,
    c2_parents_follow_reference_multiplicity envC2 0 1 emptyRepo pA2 _ rfl rfl rfl⟩

/-- A single dependency-free package, used by the C10 and C6 witnesses. -/
def pHello : NixPath := { hash := "aa", name := "hello" }

/-- Daemon content of `pHello`. -/
def pdHello : DaemonPkg := { narContent := 5, narSize := 10, references := [], deriver := none }

/-- One reachable daemon serving `pHello`; no remotes. -/
def envSingle : Env :=
  { daemons := [{ reachable := true, pkgs := [(pHello, pdHello)] }], remotes := [] }

/-- C10: when `refs/<H>/narinfo` already exists, `add_single` succeeds
without modifying the repository; otherwise, on success through the
daemon step, it sets `refs/<H>/result` to the *tree* oid of the ingested
archive (not a commit), sets `refs/<H>/narinfo` to the metadata blob, and
touches no other reference (in particular none for the dependencies). -/
theorem c10_add_single_behavior (env : Env) (repo : Repo) (p : NixPath) :
    ((repo.lookupRef (narinfoRef p.hash)).isSome → add_single env repo p = (.ok (), repo)) ∧
    (repo.lookupRef (narinfoRef p.hash) = none →
      ∀ pd, daemonsLookup env.daemons p = .ok (some pd) →
        (add_single env repo p).1 = .ok () ∧
        (add_single env repo p).2.lookupRef (resultRef p.hash) =
          some (Oid.tree pd.narContent) ∧
        (add_single env repo p).2.lookupRef (narinfoRef p.hash) =
          some (Oid.blob (mkInfo p pd)) ∧
        ∀ n, n ≠ resultRef p.hash → n ≠ narinfoRef p.hash →
          (add_single env repo p).2.lookupRef n = repo.lookupRef n) := by
  constructor
  · intro hs
    unfold add_single
    rw [if_pos]
    simpa [Repo.referenceExists] using hs
  · intro hn pd hdl
    have hex : repo.referenceExists (narinfoRef p.hash) = false := by
      simp [Repo.referenceExists, hn]
    cases hg : getPackageFromNixDaemons repo p env.daemons with
    | mk g1 g23 =>
        obtain ⟨g2, g3⟩ := g23
        have h1 := gp_result_eq repo p env.daemons
        rw [hg, hdl] at h1
        simp only at h1
        have h2 := gp_refs_eq p env.daemons repo
        rw [hg] at h2
        simp only at h2
        subst h1
        have hout : add_single env repo p =
            (.ok (), (g2.addRef (resultRef p.hash) (Oid.tree pd.narContent)).addRef
              (narinfoRef p.hash) (Oid.blob (mkInfo p pd))) := by
          unfold add_single
          rw [if_neg (by simp [hex]), hg]
        rw [hout]
        refine ⟨rfl, ?_, ?_, ?_⟩
        · simp only [Repo.lookupRef, Repo.addRef]
          rw [plookup_pupsert_ne _ _ _ _ (Ne.symm (resultRef_ne_narinfoRef p.hash p.hash))]
          exact plookup_pupsert_self _ _ _
        · simp only [Repo.lookupRef, Repo.addRef]
          exact plookup_pupsert_self _ _ _
        · intro n hn1 hn2
          simp only [Repo.lookupRef, Repo.addRef]
          rw [plookup_pupsert_ne _ _ _ _ (Ne.symm hn2),
            plookup_pupsert_ne _ _ _ _ (Ne.symm hn1), h2]

/-- C10 witness: the behavior applied to a fresh repository and the
single-package environment. -/
theorem c10_add_single_behavior_witness :
    emptyRepo.lookupRef (narinfoRef pHello.hash) = none ∧
    daemonsLookup envSingle.daemons pHello = .ok (some pdHello) ∧
    (add_single envSingle emptyRepo pHello).2.lookupRef (resultRef pHello.hash) =
      some (Oid.tree 5) :=
  ⟨rfl, rfl,
    ((c10_add_single_behavior envSingle emptyRepo pHello).2 rfl pdHello rfl).2.1⟩

/-- C7: commit creation takes no wall-clock input — the signature is the
fixed constant (`gachix`, `gachix@gachix.com`, epoch 0) — so runs of the
resolver under different ambient clocks produce identical results (same
commit oids, same repository), which is the two-run determinism of commit
oids across independent instances ingesting the same inputs. -/
theorem c7_commit_oids_clock_independent (env : Env) (now1 now2 : Int) :
    (∀ (r : Repo) (t : Oid) (ps : List Oid) (m : Option String),
      r.commit now1 t ps m = r.commit now2 t ps m) ∧
    ∀ (fuel : Nat) (s : Repo) (p : NixPath),
      addClosureRec env now1 fuel s p = addClosureRec env now2 fuel s p := by
  constructor
  · intro r t ps m
    rfl
  · intro fuel
    induction fuel with
    | zero => intro s p; rfl
    | succ n ih =>
        intro s p
        have hstep : depsStep env now1 n = depsStep env now2 n := by
          funext acc dep
          unfold depsStep
          simp only [ih]
        rw [addClosureRec_succ, addClosureRec_succ, hstep]
        rfl

/-- The self-referential package of the cyclic-metadata scenario. -/
def pCyc : NixPath := { hash := "cy", name := "loop" }

/-- Daemon content whose references list the package itself. -/
def pdCyc : DaemonPkg :=
  { narContent := 30, narSize := 0, references := [pCyc], deriver := none }

/-- Environment with one daemon serving the self-referential package. -/
def cycEnv : Env :=
  { daemons := [{ reachable := true, pkgs := [(pCyc, pdCyc)] }], remotes := [] }

/-- The dependency-loop step applied to the initial accumulator, written
as a case analysis of the recursive call. -/
theorem depsStep_start (env : Env) (now : Int) (fuel : Nat) (r2 : Repo) (dep : NixPath) :
    depsStep env now fuel (Except.ok (some []), r2) dep =
      match addClosureRec env now fuel r2 dep with
      | (.ok (some c), r1) => (.ok (some [c]), r1)
      | (.ok none, r1) => (.ok none, r1)
      | (.error e, r1) => (.error e, r1) := by
  cases hrec : addClosureRec env now fuel r2 dep with
  | mk a1 r1 =>
      match a1, hrec with
      | .ok (some c), hrec => simp [depsStep, hrec]
      | .ok none, hrec => simp [depsStep, hrec]
      | .error e, hrec => simp [depsStep, hrec]

/-- Unfolding of the resolver on an uncached node with no remotes whose
path the daemon step serves: the node runs the dependency loop on the
daemon-reported references and commits on success. -/
theorem addClosureRec_daemon_case (env : Env) (now : Int) (fuel : Nat) (repo : Repo)
    (p : NixPath) (pd : DaemonPkg)
    (hmiss : repo.getCommit p.hash = none)
    (hrem : env.remotes = [])
    (hdl : daemonsLookup env.daemons p = .ok (some pd)) :
    addClosureRec env now (fuel + 1) repo p =
      match pd.references.foldl (depsStep env now fuel)
          (Except.ok (some []), (getPackageFromNixDaemons repo p env.daemons).2.1) with
      | (.error e, repoN) => (.error e, repoN)
      | (.ok none, repoN) => (.ok none, repoN)
      | (.ok (some parents), repoN) =>
          let cr := repoN.commit now (Oid.tree pd.narContent) parents (some p.name)
          (.ok (some cr.1),
            (cr.2.addRef (resultRef p.hash) cr.1).addRef (narinfoRef p.hash)
              (Oid.blob (mkInfo p pd))) := by
  rw [addClosureRec_succ, hmiss, remotes_nil env hrem]
  simp only []
  cases hg : getPackageFromNixDaemons repo p env.daemons with
  | mk g1 g23 =>
      obtain ⟨g2, g3⟩ := g23
      have h1 := gp_result_eq repo p env.daemons
      rw [hg, hdl] at h1
      simp only at h1
      subst h1
      simp only [mkInfo]

/-- One unfolding of the resolver on the self-referential package: when
the node is not yet cached and the inner recursion does not produce a
commit, the node's result is exactly the inner recursion's result. -/
theorem cyc_step_fail (now : Int) (n : Nat) (repo : Repo)
    (hmiss : repo.getCommit pCyc.hash = none)
    (hfail : ∀ c, (addClosureRec cycEnv now n
      ((repo.addObj (Oid.tree 30)).addObj (Oid.blob (mkInfo pCyc pdCyc))) pCyc).1 ≠
        .ok (some c)) :
    addClosureRec cycEnv now (n + 1) repo pCyc =
      addClosureRec cycEnv now n
        ((repo.addObj (Oid.tree 30)).addObj (Oid.blob (mkInfo pCyc pdCyc))) pCyc := by
  rw [addClosureRec_daemon_case cycEnv now n repo pCyc pdCyc hmiss rfl rfl]
  rw [show (getPackageFromNixDaemons repo pCyc cycEnv.daemons).2.1 =
      (repo.addObj (Oid.tree 30)).addObj (Oid.blob (mkInfo pCyc pdCyc)) from rfl]
  rw [show pdCyc.references = [pCyc] from rfl, List.foldl_cons, List.foldl_nil,
    depsStep_start]
  cases hrec : addClosureRec cycEnv now n
      ((repo.addObj (Oid.tree 30)).addObj (Oid.blob (mkInfo pCyc pdCyc))) pCyc with
  | mk a1 r1 =>
      rw [hrec] at hfail
      match a1, hfail with
      | .ok (some c), hfail => exact absurd rfl (hfail c)
      | .ok none, hfail => rfl
      | .error e, hfail => rfl

/-- When the dependency loop's accumulator carries a parent list and
every dependency resolves from every state, the loop completes with a
parent list. -/
theorem foldOk (env : Env) (now : Int) (f : Nat) :
    ∀ (deps : List NixPath),
      (∀ y ∈ deps, ∀ s : Repo, ∃ c, (addClosureRec env now f s y).1 = .ok (some c)) →
      ∀ (acc : Except Unit (Option (List Oid)) × Repo) (l0 : List Oid),
        acc.1 = .ok (some l0) →
        ∃ ps, (List.foldl (depsStep env now f) acc deps).1 = .ok (some ps)
  | [], _, acc, l0, hacc => ⟨l0, by rw [List.foldl_nil]; exact hacc⟩
  | y :: ys, hdeps, acc, l0, hacc => by
      obtain ⟨a, r⟩ := acc
      simp only at hacc
      subst hacc
      obtain ⟨c, hc⟩ := hdeps y (List.mem_cons_self y ys) r
      cases hrec : addClosureRec env now f r y with
      | mk a1 r1 =>
          rw [hrec] at hc
          simp only at hc
          subst hc
          rw [List.foldl_cons,
            show depsStep env now f (Except.ok (some l0), r) y =
              (Except.ok (some (l0 ++ [c])), r1) by simp [depsStep, hrec]]
          exact foldOk env now f ys
            (fun z hz => hdeps z (List.mem_cons_of_mem y hz)) _ (l0 ++ [c]) rfl

/-- Depth-indexed resolvability: the daemons serve the path and, at one
less depth, every reference. -/
inductive ResolvableDepth (env : Env) : NixPath → Nat → Prop
  | mk {p : NixPath} {pd : DaemonPkg} {n : Nat} :
      daemonsLookup env.daemons p = .ok (some pd) →
      (∀ r ∈ pd.references, ResolvableDepth env r n) →
      ResolvableDepth env p (n + 1)

/-- With no remotes, a package whose whole closure the daemons serve
resolves successfully from any repository state, as soon as the call
stack is at least as deep as the closure — there is no other bound on
the recursion. -/
theorem resolvable_succeeds (env : Env) (now : Int) (hrem : env.remotes = [])
    (n : Nat) (p : NixPath) (h : ResolvableDepth env p n) :
    ∀ fuel, n ≤ fuel → ∀ s : Repo,
      ∃ c, (addClosureRec env now fuel s p).1 = .ok (some c) := by
  induction h with
  | mk hdl hrefs ih =>
      intro fuel hfuel s
      match fuel, hfuel with
      | f + 1, hfuel =>
          have hf := Nat.le_of_succ_le_succ hfuel
          cases hl : s.getCommit _ with
          | some c => exact ⟨c, by rw [addClosureRec_succ, hl]⟩
          | none =>
              rw [addClosureRec_daemon_case env now f s _ _ hl hrem hdl]
              obtain ⟨ps, hps⟩ := foldOk env now f _
                (fun y hy s2 => ih y hy f hf s2)
                (Except.ok (some []),
                  (getPackageFromNixDaemons s _ env.daemons).2.1) [] rfl
              cases hst : List.foldl (depsStep env now f)
                  (Except.ok (some []),
                    (getPackageFromNixDaemons s _ env.daemons).2.1)
                  _ with
              | mk st1 stR =>
                  rw [hst] at hps
                  simp only at hps
                  subst hps
                  exact ⟨_, rfl⟩

/-- Path `i` of the synthesized dependency chain (hash of `i` letters). -/
def chainPath (i : Nat) : NixPath :=
  { hash := String.mk (List.replicate i 'a'), name := "pkg" }

/-- Daemon content of chain package `i`: package `i + 1` references
package `i`, package `0` references nothing. -/
def chainPkg : Nat → DaemonPkg
  | 0 => { narContent := 0, narSize := 0, references := [], deriver := none }
  | i + 1 => { narContent := i + 1, narSize := 0, references := [chainPath i], deriver := none }

/-- The daemon contents of the chain packages `0..N`. -/
def chainPkgs : Nat → List (NixPath × DaemonPkg)
  | 0 => [(chainPath 0, chainPkg 0)]
  | i + 1 => (chainPath (i + 1), chainPkg (i + 1)) :: chainPkgs i

/-- Environment with one daemon serving the 101-package chain. -/
def chainEnv : Env :=
  { daemons := [{ reachable := true, pkgs := chainPkgs 100 }], remotes := [] }

theorem chainPath_inj {i j : Nat} (h : chainPath i = chainPath j) : i = j := by
  have hd := congrArg (fun p => p.hash.data.length) h
  simpa [chainPath] using hd

theorem chainPkgs_lookup : ∀ (bound i : Nat), i ≤ bound →
    plookup (chainPkgs bound) (chainPath i) = some (chainPkg i)
  | 0, i, hi => by
      have : i = 0 := Nat.le_zero.mp hi
      subst this
      simp [chainPkgs, plookup]
  | bound + 1, i, hi => by
      by_cases hib : i = bound + 1
      · subst hib
        simp [chainPkgs, plookup]
      · have hlt : i ≤ bound := Nat.lt_succ_iff.mp (Nat.lt_of_le_of_ne hi hib)
        have hne : chainPath (bound + 1) ≠ chainPath i :=
          fun hc => hib (chainPath_inj hc).symm
        simp only [chainPkgs, plookup, if_neg hne]
        exact chainPkgs_lookup bound i hlt

theorem chain_resolvable : ∀ i : Nat, i ≤ 100 →
    ResolvableDepth chainEnv (chainPath i) (i + 1)
  | 0, _ =>
      @ResolvableDepth.mk chainEnv (chainPath 0) (chainPkg 0) 0
        (by simp [chainEnv, daemonsLookup, chainPkgs_lookup 100 0 (by omega)])
        (fun r hr => absurd hr (List.not_mem_nil r))
  | i + 1, hi =>
      @ResolvableDepth.mk chainEnv (chainPath (i + 1)) (chainPkg (i + 1)) (i + 1)
        (by simp [chainEnv, daemonsLookup, chainPkgs_lookup 100 (i + 1) hi])
        (fun r hr => by
          have : r = chainPath i := by simpa [chainPkg] using hr
          subst this
          exact chain_resolvable i (by omega))

theorem chainPkgs_length : ∀ bound : Nat, (chainPkgs bound).length = bound + 1
  | 0 => rfl
  | b + 1 => by simp [chainPkgs, chainPkgs_length b]

/-- C4 counterexample: a synthesized chain of 101 packages resolves
successfully at call-stack allowance 102 instead of failing with
`DepthExceeded` — the source has no depth bound and no `DepthExceeded`
error at all. -/
theorem c4_chain_101_succeeds :
    isOkSome (addClosureRec chainEnv 0 102 emptyRepo (chainPath 100)).1 = true ∧
    (chainPkgs 100).length = 101 := by
  constructor
  · obtain ⟨c, hc⟩ := resolvable_succeeds chainEnv 0 rfl 101 (chainPath 100)
      (chain_resolvable 100 (by omega)) 102 (by omega) emptyRepo
    rw [hc]
    rfl
  · exact chainPkgs_length 100

/-- C4 (amended): recursion in `_add_closure` is unbounded — there is no
depth cap and no `DepthExceeded` failure; on cyclic metadata the resolver
never completes at any call-stack depth (every fuel is exhausted without
producing a commit or writing the package's result ref), so termination
is not protected against malformed upstream metadata. -/
theorem c4_cycle_never_completes (now : Int) :
    ∀ (fuel : Nat) (repo : Repo), repo.lookupRef (resultRef "cy") = none →
      (∀ c, (addClosureRec cycEnv now fuel repo pCyc).1 ≠ .ok (some c)) ∧
      (addClosureRec cycEnv now fuel repo pCyc).2.lookupRef (resultRef "cy") = none := by
  intro fuel
  induction fuel with
  | zero =>
      intro repo h
      exact ⟨fun c hc => by simp [addClosureRec] at hc, h⟩
  | succ n ih =>
      intro repo h
      have hmiss : repo.getCommit pCyc.hash = none := h
      obtain ⟨ih1, ih2⟩ :=
        ih ((repo.addObj (Oid.tree 30)).addObj (Oid.blob (mkInfo pCyc pdCyc))) h
      rw [cyc_step_fail now n repo hmiss ih1]
      exact ⟨ih1, ih2⟩

/-- C4 witness: the cyclic-metadata statement applied to the fresh
repository at a concrete depth. -/
theorem c4_cycle_never_completes_witness :
    emptyRepo.lookupRef (resultRef "cy") = none ∧
    ∀ c, (addClosureRec cycEnv 0 7 emptyRepo pCyc).1 ≠ .ok (some c) :=
  ⟨rfl, (c4_cycle_never_completes 0 7 emptyRepo rfl).1⟩

/-- A successful resolver run leaves `refs/<hash>/result` pointing at the
returned commit oid (in a configuration without Git remotes). -/
theorem success_sets_result_ref (env : Env) (now : Int) (fuel : Nat) (s : Repo)
    (p : NixPath) (c : Oid) (hrem : env.remotes = [])
    (hres : (addClosureRec env now fuel s p).1 = .ok (some c)) :
    ((addClosureRec env now fuel s p).2).lookupRef (resultRef p.hash) = some c := by
  match fuel with
  | 0 => simp [addClosureRec] at hres
  | fuel + 1 =>
      rw [addClosureRec_succ] at hres ⊢
      cases hl : s.getCommit p.hash with
      | some c0 =>
          simp only [hl, Except.ok.injEq, Option.some.injEq] at hres
          subst hres
          exact hl
      | none =>
          simp only [hl, remotes_nil env hrem] at hres ⊢
          cases hg : getPackageFromNixDaemons s p env.daemons with
          | mk g1 g23 =>
              obtain ⟨g2, g3⟩ := g23
              have h1 := gp_result_eq s p env.daemons
              rw [hg] at h1
              simp only at h1
              cases hdl : daemonsLookup env.daemons p with
              | error e =>
                  rw [hdl] at h1
                  subst h1
                  rw [hg] at hres
                  simp at hres
              | ok o =>
                  cases o with
                  | none =>
                      rw [hdl] at h1
                      subst h1
                      rw [hg] at hres
                      simp at hres
                  | some pd =>
                      rw [hdl] at h1
                      subst h1
                      rw [hg] at hres
                      simp only at hres ⊢
                      cases hst : (mkInfo p pd).references.foldl (depsStep env now fuel)
                          (Except.ok (some []), g2) with
                      | mk st1 stR =>
                          rw [hst] at hres
                          match st1, hres with
                          | .error e, hres => simp at hres
                          | .ok none, hres => simp at hres
                          | .ok (some parents), hres =>
                              simp only [Repo.commit, Except.ok.injEq,
                                Option.some.injEq] at hres
                              subst hres
                              simp only [Repo.commit, Repo.lookupRef, Repo.addRef]
                              rw [plookup_pupsert_ne _ _ _ _
                                (Ne.symm (resultRef_ne_narinfoRef p.hash p.hash))]
                              exact plookup_pupsert_self _ _ _

/-- C6: `add_closure` is idempotent — after a successful run, the result
reference for the root's hash holds the returned commit, so a second run
takes the local-hit fast path: it returns the same commit oid and leaves
the repository exactly as it was (no new refs, no new objects), for any
ambient clock and any remaining stack depth. -/
theorem c6_add_closure_idempotent (env : Env) (now now2 : Int) (fuel : Nat)
    (s : Repo) (p : NixPath) (c : Oid)
    (hrem : env.remotes = [])
    (h1 : (addClosureRec env now fuel s p).1 = .ok (some c)) :
    ∀ f, addClosureRec env now2 (f + 1) (addClosureRec env now fuel s p).2 p =
        (.ok (some c), (addClosureRec env now fuel s p).2) ∧
      add_closure env now2 (f + 1) (addClosureRec env now fuel s p).2 p =
        (.ok (), (addClosureRec env now fuel s p).2) := by
  intro f
  have hgc : ((addClosureRec env now fuel s p).2).getCommit p.hash = some c :=
    success_sets_result_ref env now fuel s p c hrem h1
  have hfst : addClosureRec env now2 (f + 1) (addClosureRec env now fuel s p).2 p =
      (.ok (some c), (addClosureRec env now fuel s p).2) := by
    rw [addClosureRec_succ, hgc]
  refine ⟨hfst, ?_⟩
  unfold add_closure
  rw [hfst]

/-- C6 witness: a successful first run on the single-package environment,
then the second run returning the same commit with the repository
unchanged. -/
theorem c6_add_closure_idempotent_witness :
    envSingle.remotes = [] ∧
    (addClosureRec envSingle 0 2 emptyRepo pHello).1 =
      .ok (some (Oid.commit (Oid.tree 5) [] fixedSig fixedSig (some "hello"))) ∧
    addClosureRec envSingle 7 1 (addClosureRec envSingle 0 2 emptyRepo pHello).2 pHello =
      (.ok (some (Oid.commit (Oid.tree 5) [] fixedSig fixedSig (some "hello"))),
        (addClosureRec envSingle 0 2 emptyRepo pHello).2) :=
  ⟨rfl, rfl,
    (c6_add_closure_idempotent envSingle 0 7 2 emptyRepo pHello
      (Oid.commit (Oid.tree 5) [] fixedSig fixedSig (some "hello")) rfl rfl 0).1⟩

/-- Some configured daemon (behind the reachable prefix) serves the path. -/
def DHas (env : Env) (q : NixPath) : Prop :=
  ∃ pd, daemonsLookup env.daemons q = .ok (some pd)

/-- Content-addressing sanity of an environment: two daemon-served store
paths with the same base-32 hash are the same path. -/
def HashClean (env : Env) : Prop :=
  ∀ q1 q2, DHas env q1 → DHas env q2 → q1.hash = q2.hash → q1 = q2

/-- No daemon serves any path with the given hash ("no daemon has it"). -/
def NoSource (env : Env) (h : String) : Prop :=
  ∀ q pd, daemonsLookup env.daemons q = .ok (some pd) → q.hash ≠ h

/-- `d` is in the dependency closure of the path, following the references
the daemons report. -/
inductive ChainTo (env : Env) (d : NixPath) : NixPath → Prop
  | refl : ChainTo env d d
  | step {q : NixPath} {pd : DaemonPkg} {q1 : NixPath} :
      daemonsLookup env.daemons q = .ok (some pd) → q1 ∈ pd.references →
      ChainTo env d q1 → ChainTo env d q

/-- No node on a dependency chain down to `d` has a local result ref. -/
def ChainMiss (env : Env) (d : NixPath) (s : Repo) : Prop :=
  ∀ x, ChainTo env d x → s.lookupRef (resultRef x.hash) = none

/-- The reachable-state invariant of the repository (spec section 8,
invariant 2): a locally cached package has all its daemon-reported
references cached as well. -/
def RefClosed (env : Env) (s : Repo) : Prop :=
  ∀ q pd, (s.lookupRef (resultRef q.hash)).isSome →
    daemonsLookup env.daemons q = .ok (some pd) →
    ∀ r ∈ pd.references, (s.lookupRef (resultRef r.hash)).isSome

/-- In a ref-closed repository where `d` is uncached, every node chaining
down to `d` is uncached. -/
theorem refclosed_chainmiss (env : Env) (d : NixPath) (s : Repo)
    (hclosed : RefClosed env s)
    (hdmiss : s.lookupRef (resultRef d.hash) = none) :
    ChainMiss env d s := by
  intro x hx
  induction hx with
  | refl => exact hdmiss
  | step hq hmem hc ih =>
      cases hcase : s.lookupRef (resultRef _) with
      | none => rfl
      | some o =>
          have := hclosed _ _ (by rw [hcase]; rfl) hq _ hmem
          rw [ih] at this
          cases this

/-- `ChainMiss` only looks at the references, so it transports along
equal reference lists. -/
theorem chainmiss_of_refs_eq (env : Env) (d : NixPath) {s1 s2 : Repo}
    (h : s2.refs = s1.refs) (hm : ChainMiss env d s1) : ChainMiss env d s2 := by
  intro x hx
  show plookup s2.refs (resultRef x.hash) = none
  rw [h]
  exact hm x hx

/-- Unfolding of the resolver on an uncached node with no remotes whose
path no daemon serves (or where the daemon loop errors): the node resolves
to `Ok(None)` with only the daemon step's object writes. -/
theorem addClosureRec_daemon_fail (env : Env) (now : Int) (fuel : Nat) (repo : Repo)
    (p : NixPath)
    (hmiss : repo.getCommit p.hash = none)
    (hrem : env.remotes = [])
    (hdl : daemonsLookup env.daemons p = .error () ∨
      daemonsLookup env.daemons p = .ok none) :
    addClosureRec env now (fuel + 1) repo p =
      (.ok none, (getPackageFromNixDaemons repo p env.daemons).2.1) := by
  rw [addClosureRec_succ, hmiss, remotes_nil env hrem]
  simp only []
  cases hg : getPackageFromNixDaemons repo p env.daemons with
  | mk g1 g23 =>
      obtain ⟨g2, g3⟩ := g23
      have h1 := gp_result_eq repo p env.daemons
      rw [hg] at h1
      simp only at h1
      cases hdl with
      | inl hdl =>
          rw [hdl] at h1
          subst h1
          rfl
      | inr hdl =>
          rw [hdl] at h1
          subst h1
          rfl

/-- The dependency loop preserves chain-uncachedness, given the per-node
induction hypothesis at the inner stack depth. -/
theorem foldPres (env : Env) (now : Int) (n : Nat) (d : NixPath)
    (IHm : ∀ s q, ChainMiss env d s → ChainMiss env d (addClosureRec env now n s q).2) :
    ∀ (deps : List NixPath) (acc : Except Unit (Option (List Oid)) × Repo),
      ChainMiss env d acc.2 →
      ChainMiss env d (List.foldl (depsStep env now n) acc deps).2
  | [], acc, hacc => hacc
  | y :: ys, acc, hacc => by
      rw [List.foldl_cons]
      obtain ⟨a, r⟩ := acc
      match a with
      | .ok (some l0) =>
          cases hrec : addClosureRec env now n r y with
          | mk a1 r1 =>
              have hm1 : ChainMiss env d r1 := by
                have := IHm r y hacc
                rwa [hrec] at this
              match a1, hrec with
              | .ok (some c), hrec =>
                  rw [show depsStep env now n (Except.ok (some l0), r) y =
                      (Except.ok (some (l0 ++ [c])), r1) by simp [depsStep, hrec]]
                  exact foldPres env now n d IHm ys _ hm1
              | .ok none, hrec =>
                  rw [show depsStep env now n (Except.ok (some l0), r) y =
                      (Except.ok none, r1) by simp [depsStep, hrec]]
                  exact foldPres env now n d IHm ys _ hm1
              | .error e, hrec =>
                  rw [show depsStep env now n (Except.ok (some l0), r) y =
                      (Except.error e, r1) by simp [depsStep, hrec]]
                  exact foldPres env now n d IHm ys _ hm1
      | .ok none =>
          rw [show depsStep env now n (Except.ok none, r) y = (Except.ok none, r) from rfl]
          exact foldPres env now n d IHm ys _ hacc
      | .error e =>
          rw [show depsStep env now n (Except.error e, r) y = (Except.error e, r) from rfl]
          exact foldPres env now n d IHm ys _ hacc

/-- The dependency loop cannot complete with a parent list when some
dependency in it chains down to `d`, given the per-node induction
hypotheses at the inner stack depth. -/
theorem foldBlocks (env : Env) (now : Int) (n : Nat) (d : NixPath)
    (IHm : ∀ s q, ChainMiss env d s → ChainMiss env d (addClosureRec env now n s q).2)
    (IHb : ∀ s q, ChainMiss env d s → ChainTo env d q →
      ∀ c, (addClosureRec env now n s q).1 ≠ .ok (some c)) :
    ∀ (deps : List NixPath) (acc : Except Unit (Option (List Oid)) × Repo)
      (x : NixPath), x ∈ deps → ChainTo env d x → ChainMiss env d acc.2 →
      ∀ ps, (List.foldl (depsStep env now n) acc deps).1 ≠ .ok (some ps)
  | [], _, x, hmem, _, _, _ => absurd hmem (List.not_mem_nil x)
  | y :: ys, acc, x, hmem, hcx, hacc, ps => by
      intro hps
      obtain ⟨a, r⟩ := acc
      match a with
      | .ok none =>
          rw [depsFold_absorb env now n (y :: ys) _ (by intro qs hq; simp at hq)] at hps
          simp at hps
      | .error e =>
          rw [depsFold_absorb env now n (y :: ys) _ (by intro qs hq; simp at hq)] at hps
          simp at hps
      | .ok (some l0) =>
          rw [List.foldl_cons] at hps
          cases hrec : addClosureRec env now n r y with
          | mk a1 r1 =>
              have hm1 : ChainMiss env d r1 := by
                have := IHm r y hacc
                rwa [hrec] at this
              rcases List.mem_cons.mp hmem with hxy | hxys
              · subst hxy
                have hb1 := IHb r x hacc hcx
                rw [hrec] at hb1
                match a1, hrec, hb1 with
                | .ok (some c), hrec, hb1 => exact absurd rfl (hb1 c)
                | .ok none, hrec, hb1 =>
                    rw [show depsStep env now n (Except.ok (some l0), r) x =
                        (Except.ok none, r1) by simp [depsStep, hrec],
                      depsFold_absorb env now n ys _ (by intro qs hq; simp at hq)] at hps
                    simp at hps
                | .error e, hrec, hb1 =>
                    rw [show depsStep env now n (Except.ok (some l0), r) x =
                        (Except.error e, r1) by simp [depsStep, hrec],
                      depsFold_absorb env now n ys _ (by intro qs hq; simp at hq)] at hps
                    simp at hps
              · match a1, hrec with
                | .ok (some c), hrec =>
                    rw [show depsStep env now n (Except.ok (some l0), r) y =
                        (Except.ok (some (l0 ++ [c])), r1) by simp [depsStep, hrec]] at hps
                    exact foldBlocks env now n d IHm IHb ys _ x hxys hcx hm1 ps hps
                | .ok none, hrec =>
                    rw [show depsStep env now n (Except.ok (some l0), r) y =
                        (Except.ok none, r1) by simp [depsStep, hrec],
                      depsFold_absorb env now n ys _ (by intro qs hq; simp at hq)] at hps
                    simp at hps
                | .error e, hrec =>
                    rw [show depsStep env now n (Except.ok (some l0), r) y =
                        (Except.error e, r1) by simp [depsStep, hrec],
                      depsFold_absorb env now n ys _ (by intro qs hq; simp at hq)] at hps
                    simp at hps

/-- Core of the no-partial-state argument: under "no peer" (empty remote
list), content-addressing sanity and "no daemon serves `d`'s hash", any
run of the resolver keeps every node chaining to `d` uncached, and a run
on a node that chains to `d` never produces a commit. -/
theorem chain_blocked (env : Env) (d : NixPath) (now : Int)
    (hrem : env.remotes = []) (hclean : HashClean env)
    (hns : NoSource env d.hash) :
    ∀ (fuel : Nat) (s : Repo) (q : NixPath), ChainMiss env d s →
      ChainMiss env d (addClosureRec env now fuel s q).2 ∧
      (ChainTo env d q → ∀ c, (addClosureRec env now fuel s q).1 ≠ .ok (some c)) := by
  intro fuel
  induction fuel with
  | zero =>
      intro s q hm
      exact ⟨hm, fun _ c hc => by simp [addClosureRec] at hc⟩
  | succ n ih =>
      have IHm : ∀ s q, ChainMiss env d s →
          ChainMiss env d (addClosureRec env now n s q).2 :=
        fun s q hm => (ih s q hm).1
      have IHb : ∀ s q, ChainMiss env d s → ChainTo env d q →
          ∀ c, (addClosureRec env now n s q).1 ≠ .ok (some c) :=
        fun s q hm hq => (ih s q hm).2 hq
      intro s q hm
      cases hl : s.getCommit q.hash with
      | some c0 =>
          have heq : addClosureRec env now (n + 1) s q = (.ok (some c0), s) := by
            rw [addClosureRec_succ, hl]
          rw [heq]
          refine ⟨hm, fun hq c hc => ?_⟩
          have := hm q hq
          unfold Repo.getCommit at hl
          rw [this] at hl
          cases hl
      | none =>
          cases hdl : daemonsLookup env.daemons q with
          | error e =>
              have heq := addClosureRec_daemon_fail env now n s q hl hrem (Or.inl hdl)
              rw [heq]
              have hG2 : ChainMiss env d (getPackageFromNixDaemons s q env.daemons).2.1 :=
                chainmiss_of_refs_eq env d (gp_refs_eq q env.daemons s) hm
              exact ⟨hG2, fun _ c hc => by simp at hc⟩
          | ok o =>
              cases o with
              | none =>
                  have heq := addClosureRec_daemon_fail env now n s q hl hrem (Or.inr hdl)
                  rw [heq]
                  have hG2 : ChainMiss env d (getPackageFromNixDaemons s q env.daemons).2.1 :=
                    chainmiss_of_refs_eq env d (gp_refs_eq q env.daemons s) hm
                  exact ⟨hG2, fun _ c hc => by simp at hc⟩
              | some pd =>
                  have heq := addClosureRec_daemon_case env now n s q pd hl hrem hdl
                  have hG2 : ChainMiss env d (getPackageFromNixDaemons s q env.daemons).2.1 :=
                    chainmiss_of_refs_eq env d (gp_refs_eq q env.daemons s) hm
                  have key : ChainTo env d q →
                      ∀ ps, (List.foldl (depsStep env now n)
                        (Except.ok (some []), (getPackageFromNixDaemons s q env.daemons).2.1)
                        pd.references).1 ≠ .ok (some ps) := by
                    intro hq ps hps
                    cases hq with
                    | refl => exact hns d pd hdl rfl
                    | step hq1 hmem hc1 =>
                        rw [hdl] at hq1
                        simp only [Except.ok.injEq, Option.some.injEq] at hq1
                        subst hq1
                        exact foldBlocks env now n d IHm IHb pd.references
                          (Except.ok (some []),
                            (getPackageFromNixDaemons s q env.daemons).2.1)
                          _ hmem hc1 hG2 ps hps
                  rw [heq]
                  cases hst : List.foldl (depsStep env now n)
                      (Except.ok (some []), (getPackageFromNixDaemons s q env.daemons).2.1)
                      pd.references with
                  | mk st1 stR =>
                      have hmR : ChainMiss env d stR := by
                        have := foldPres env now n d IHm pd.references
                          (Except.ok (some []),
                            (getPackageFromNixDaemons s q env.daemons).2.1) hG2
                        rwa [hst] at this
                      match st1, hst with
                      | .error e, hst => exact ⟨hmR, fun _ c hc => by simp at hc⟩
                      | .ok none, hst => exact ⟨hmR, fun _ c hc => by simp at hc⟩
                      | .ok (some parents), hst =>
                          constructor
                          · intro x hx
                            simp only [Repo.commit, Repo.lookupRef, Repo.addRef,
                              Repo.addObj]
                            rw [plookup_pupsert_ne _ _ _ _
                              (Ne.symm (resultRef_ne_narinfoRef x.hash q.hash))]
                            by_cases hcol : resultRef x.hash = resultRef q.hash
                            · have hxq : x.hash = q.hash := resultRef_inj hcol
                              have hqx : q = x := by
                                cases hx with
                                | refl => exact absurd hxq.symm (hns q pd hdl)
                                | step hx1 hmem2 hc2 =>
                                    exact hclean q x ⟨pd, hdl⟩ ⟨_, hx1⟩ hxq.symm
                              have hcq : ChainTo env d q := hqx ▸ hx
                              exact absurd (by rw [hst]) (key hcq parents)
                            · rw [plookup_pupsert_ne _ _ _ _ (Ne.symm hcol)]
                              exact hmR x hx
                          · intro hq c hc
                            exact absurd (by rw [hst]) (key hq parents)

/-- The dependency loop never removes a reference, given the per-node
monotonicity hypothesis at the inner stack depth. -/
theorem foldMono (env : Env) (now : Int) (n : Nat)
    (IH : ∀ (s : Repo) (q : NixPath) (nm : String), (s.lookupRef nm).isSome →
      (((addClosureRec env now n s q).2).lookupRef nm).isSome) :
    ∀ (deps : List NixPath) (acc : Except Unit (Option (List Oid)) × Repo)
      (nm : String), ((acc.2).lookupRef nm).isSome →
      (((List.foldl (depsStep env now n) acc deps).2).lookupRef nm).isSome
  | [], _, _, h => h
  | y :: ys, acc, nm, h => by
      rw [List.foldl_cons]
      obtain ⟨a, r⟩ := acc
      match a with
      | .ok (some l0) =>
          cases hrec : addClosureRec env now n r y with
          | mk a1 r1 =>
              have h1 : (r1.lookupRef nm).isSome := by
                have := IH r y nm h
                rwa [hrec] at this
              match a1, hrec with
              | .ok (some c), hrec =>
                  rw [show depsStep env now n (Except.ok (some l0), r) y =
                      (Except.ok (some (l0 ++ [c])), r1) by simp [depsStep, hrec]]
                  exact foldMono env now n IH ys _ nm h1
              | .ok none, hrec =>
                  rw [show depsStep env now n (Except.ok (some l0), r) y =
                      (Except.ok none, r1) by simp [depsStep, hrec]]
                  exact foldMono env now n IH ys _ nm h1
              | .error e, hrec =>
                  rw [show depsStep env now n (Except.ok (some l0), r) y =
                      (Except.error e, r1) by simp [depsStep, hrec]]
                  exact foldMono env now n IH ys _ nm h1
      | .ok none =>
          rw [show depsStep env now n (Except.ok none, r) y = (Except.ok none, r) from rfl]
          exact foldMono env now n IH ys _ nm h
      | .error e =>
          rw [show depsStep env now n (Except.error e, r) y = (Except.error e, r) from rfl]
          exact foldMono env now n IH ys _ nm h

/-- A resolver run never removes a reference (configurations without Git
remotes). -/
theorem refs_mono (env : Env) (now : Int) (hrem : env.remotes = []) :
    ∀ (fuel : Nat) (s : Repo) (q : NixPath) (nm : String),
      (s.lookupRef nm).isSome →
      (((addClosureRec env now fuel s q).2).lookupRef nm).isSome := by
  intro fuel
  induction fuel with
  | zero => intro s q nm h; exact h
  | succ n ih =>
      intro s q nm h
      cases hl : s.getCommit q.hash with
      | some c0 =>
          have heq : addClosureRec env now (n + 1) s q = (.ok (some c0), s) := by
            rw [addClosureRec_succ, hl]
          rw [heq]
          exact h
      | none =>
          cases hdl : daemonsLookup env.daemons q with
          | error e =>
              rw [addClosureRec_daemon_fail env now n s q hl hrem (Or.inl hdl)]
              show (plookup ((getPackageFromNixDaemons s q env.daemons).2.1).refs nm).isSome
              rw [gp_refs_eq]
              exact h
          | ok o =>
              cases o with
              | none =>
                  rw [addClosureRec_daemon_fail env now n s q hl hrem (Or.inr hdl)]
                  show (plookup ((getPackageFromNixDaemons s q env.daemons).2.1).refs nm).isSome
                  rw [gp_refs_eq]
                  exact h
              | some pd =>
                  rw [addClosureRec_daemon_case env now n s q pd hl hrem hdl]
                  have hG2 : (((getPackageFromNixDaemons s q env.daemons).2.1).lookupRef nm).isSome := by
                    show (plookup ((getPackageFromNixDaemons s q env.daemons).2.1).refs nm).isSome
                    rw [gp_refs_eq]
                    exact h
                  cases hst : List.foldl (depsStep env now n)
                      (Except.ok (some []),
                        (getPackageFromNixDaemons s q env.daemons).2.1)
                      pd.references with
                  | mk st1 stR =>
                      have hR : (stR.lookupRef nm).isSome := by
                        have := foldMono env now n ih pd.references
                          (Except.ok (some []),
                            (getPackageFromNixDaemons s q env.daemons).2.1) nm hG2
                        rwa [hst] at this
                      match st1, hst with
                      | .error e, hst => exact hR
                      | .ok none, hst => exact hR
                      | .ok (some parents), hst =>
                          simp only [Repo.commit, Repo.lookupRef, Repo.addRef, Repo.addObj]
                          exact plookup_isSome_pupsert _ _ _ _
                            (plookup_isSome_pupsert _ _ _ _ hR)

/-- Through the dependency loop, a narinfo reference that appears was
either already there or is paired with a result reference, given the
per-node hypotheses at the inner stack depth. -/
theorem narinfo_foldW (env : Env) (now : Int) (n : Nat)
    (IHw : ∀ (s : Repo) (q : NixPath) (hsh : String),
      (((addClosureRec env now n s q).2).lookupRef (narinfoRef hsh)).isSome →
      (s.lookupRef (narinfoRef hsh)).isSome ∨
        (((addClosureRec env now n s q).2).lookupRef (resultRef hsh)).isSome)
    (IHmono : ∀ (s : Repo) (q : NixPath) (nm : String), (s.lookupRef nm).isSome →
      (((addClosureRec env now n s q).2).lookupRef nm).isSome) :
    ∀ (deps : List NixPath) (acc : Except Unit (Option (List Oid)) × Repo)
      (hsh : String),
      (((List.foldl (depsStep env now n) acc deps).2).lookupRef (narinfoRef hsh)).isSome →
      ((acc.2).lookupRef (narinfoRef hsh)).isSome ∨
        (((List.foldl (depsStep env now n) acc deps).2).lookupRef (resultRef hsh)).isSome
  | [], _, _, h => Or.inl h
  | y :: ys, acc, hsh, h => by
      rw [List.foldl_cons] at h ⊢
      obtain ⟨a, r⟩ := acc
      match a with
      | .ok (some l0) =>
          cases hrec : addClosureRec env now n r y with
          | mk a1 r1 =>
              have hnode : (r1.lookupRef (narinfoRef hsh)).isSome →
                  (r.lookupRef (narinfoRef hsh)).isSome ∨
                    (r1.lookupRef (resultRef hsh)).isSome := by
                intro hx
                have := IHw r y hsh (by rw [hrec]; exact hx)
                rwa [hrec] at this
              match a1, hrec with
              | .ok (some c), hrec =>
                  rw [show depsStep env now n (Except.ok (some l0), r) y =
                      (Except.ok (some (l0 ++ [c])), r1) by simp [depsStep, hrec]] at h ⊢
                  rcases narinfo_foldW env now n IHw IHmono ys _ hsh h with h2 | h2
                  · rcases hnode h2 with h3 | h3
                    · exact Or.inl h3
                    · exact Or.inr (foldMono env now n IHmono ys _ _ h3)
                  · exact Or.inr h2
              | .ok none, hrec =>
                  rw [show depsStep env now n (Except.ok (some l0), r) y =
                      (Except.ok none, r1) by simp [depsStep, hrec]] at h ⊢
                  rcases narinfo_foldW env now n IHw IHmono ys _ hsh h with h2 | h2
                  · rcases hnode h2 with h3 | h3
                    · exact Or.inl h3
                    · exact Or.inr (foldMono env now n IHmono ys _ _ h3)
                  · exact Or.inr h2
              | .error e, hrec =>
                  rw [show depsStep env now n (Except.ok (some l0), r) y =
                      (Except.error e, r1) by simp [depsStep, hrec]] at h ⊢
                  rcases narinfo_foldW env now n IHw IHmono ys _ hsh h with h2 | h2
                  · rcases hnode h2 with h3 | h3
                    · exact Or.inl h3
                    · exact Or.inr (foldMono env now n IHmono ys _ _ h3)
                  · exact Or.inr h2
      | .ok none =>
          rw [show depsStep env now n (Except.ok none, r) y =
            (Except.ok none, r) from rfl] at h ⊢
          exact narinfo_foldW env now n IHw IHmono ys _ hsh h
      | .error e =>
          rw [show depsStep env now n (Except.error e, r) y =
            (Except.error e, r) from rfl] at h ⊢
          exact narinfo_foldW env now n IHw IHmono ys _ hsh h

/-- Node-level write shape (configurations without Git remotes): when a
narinfo reference is present after a resolver run, it was either present
before the run or the matching result reference is present after it —
narinfo refs are only ever written right after their result ref. -/
theorem narinfo_pairs (env : Env) (now : Int) (hrem : env.remotes = []) :
    ∀ (fuel : Nat) (s : Repo) (q : NixPath) (hsh : String),
      (((addClosureRec env now fuel s q).2).lookupRef (narinfoRef hsh)).isSome →
      (s.lookupRef (narinfoRef hsh)).isSome ∨
        (((addClosureRec env now fuel s q).2).lookupRef (resultRef hsh)).isSome := by
  intro fuel
  induction fuel with
  | zero => intro s q hsh h; exact Or.inl h
  | succ n ih =>
      intro s q hsh h
      cases hl : s.getCommit q.hash with
      | some c0 =>
          have heq : addClosureRec env now (n + 1) s q = (.ok (some c0), s) := by
            rw [addClosureRec_succ, hl]
          rw [heq] at h
          exact Or.inl h
      | none =>
          cases hdl : daemonsLookup env.daemons q with
          | error e =>
              rw [addClosureRec_daemon_fail env now n s q hl hrem (Or.inl hdl)] at h
              refine Or.inl ?_
              show (plookup s.refs (narinfoRef hsh)).isSome
              rw [← gp_refs_eq q env.daemons s]
              exact h
          | ok o =>
              cases o with
              | none =>
                  rw [addClosureRec_daemon_fail env now n s q hl hrem (Or.inr hdl)] at h
                  refine Or.inl ?_
                  show (plookup s.refs (narinfoRef hsh)).isSome
                  rw [← gp_refs_eq q env.daemons s]
                  exact h
              | some pd =>
                  rw [addClosureRec_daemon_case env now n s q pd hl hrem hdl] at h ⊢
                  have hfold := narinfo_foldW env now n ih
                    (fun s q nm => refs_mono env now hrem n s q nm) pd.references
                    (Except.ok (some []),
                      (getPackageFromNixDaemons s q env.daemons).2.1) hsh
                  cases hst : List.foldl (depsStep env now n)
                      (Except.ok (some []),
                        (getPackageFromNixDaemons s q env.daemons).2.1)
                      pd.references with
                  | mk st1 stR =>
                      rw [hst] at h hfold
                      have hG2toS : (((getPackageFromNixDaemons s q env.daemons).2.1).lookupRef
                          (narinfoRef hsh)).isSome →
                          (s.lookupRef (narinfoRef hsh)).isSome := by
                        intro hx
                        show (plookup s.refs (narinfoRef hsh)).isSome
                        rw [← gp_refs_eq q env.daemons s]
                        exact hx
                      match st1, hst with
                      | .error e, hst =>
                          rcases hfold h with h2 | h2
                          · exact Or.inl (hG2toS h2)
                          · exact Or.inr h2
                      | .ok none, hst =>
                          rcases hfold h with h2 | h2
                          · exact Or.inl (hG2toS h2)
                          · exact Or.inr h2
                      | .ok (some parents), hst =>
                          simp only [Repo.commit, Repo.lookupRef, Repo.addRef,
                            Repo.addObj] at h ⊢
                          by_cases hq2 : narinfoRef hsh = narinfoRef q.hash
                          · have hh : hsh = q.hash := narinfoRef_inj hq2
                            subst hh
                            refine Or.inr ?_
                            rw [plookup_pupsert_ne _ _ _ _
                              (Ne.symm (resultRef_ne_narinfoRef q.hash q.hash))]
                            rw [plookup_pupsert_self]
                            rfl
                          · rw [plookup_pupsert_ne _ _ _ _ (Ne.symm hq2),
                              plookup_pupsert_ne _ _ _ _
                                (resultRef_ne_narinfoRef q.hash hsh)] at h
                            rcases hfold h with h2 | h2
                            · exact Or.inl (hG2toS h2)
                            · refine Or.inr ?_
                              exact plookup_isSome_pupsert _ _ _ _
                                (plookup_isSome_pupsert _ _ _ _ h2)

/-- C1 (amended): `add_closure` never leaves partial state for the
requested root *in configurations without Git peers*. If some package `d`
in the root's dependency closure is unresolvable — no local result ref,
no remotes configured, no daemon serving its hash — then in a reachable
repository state (ref-closed, spec section 8 invariant 2) of a
content-addressing-sane environment, `add_closure(p)` fails, the root's
`refs/<H>/result` is still absent afterwards, and `refs/<H>/narinfo` is
present afterwards only if it was present before (neither ref is written
for the root's hash; the commit of a node is written only after every
dependency resolved). The restriction to the peer-free configuration is
forced: through the peer tier, `fetch_from_remote` writes the fetched
root refs before the dependency walk can fail (see the counterexample
below). -/
theorem c1_no_root_refs_on_unresolvable (env : Env) (now : Int)
    (fuel : Nat) (s : Repo) (p d : NixPath)
    (hrem : env.remotes = [])
    (hchain : ChainTo env d p)
    (hns : NoSource env d.hash)
    (hclean : HashClean env)
    (hclosed : RefClosed env s)
    (hdmiss : s.lookupRef (resultRef d.hash) = none) :
    (add_closure env now fuel s p).1 = .error () ∧
    ((add_closure env now fuel s p).2).lookupRef (resultRef p.hash) = none ∧
    ((((add_closure env now fuel s p).2).lookupRef (narinfoRef p.hash)).isSome →
      (s.lookupRef (narinfoRef p.hash)).isSome) := by
  have hmiss : ChainMiss env d s := refclosed_chainmiss env d s hclosed hdmiss
  obtain ⟨hm2, hblock⟩ := chain_blocked env d now hrem hclean hns fuel s p hmiss
  have hpairs := narinfo_pairs env now hrem fuel s p p.hash
  cases hr : addClosureRec env now fuel s p with
  | mk a1 r1 =>
      rw [hr] at hm2 hpairs
      have hb1 := hblock hchain
      rw [hr] at hb1
      have hout : add_closure env now fuel s p = (.error (), r1) := by
        unfold add_closure
        rw [hr]
        match a1, hb1 with
        | .ok (some c), hb1 => exact absurd rfl (hb1 c)
        | .ok none, hb1 => rfl
        | .error e, hb1 => rfl
      rw [hout]
      refine ⟨rfl, hm2 p hchain, ?_⟩
      intro hn
      rcases hpairs hn with h2 | h2
      · exact h2
      · rw [hm2 p hchain] at h2
        cases h2

/-- The unresolvable dependency of the C1 scenario: no daemon serves it. -/
def pC1d : NixPath := { hash := "d1", name := "miss" }

/-- The root of the C1 scenario: served by the daemon, referencing the
unresolvable dependency. -/
def pC1p : NixPath := { hash := "p1", name := "root" }

/-- Daemon content of the C1 root. -/
def pdC1 : DaemonPkg := { narContent := 40, narSize := 0, references := [pC1d], deriver := none }

/-- C1 environment: one reachable daemon serving only the root; no
remotes. -/
def envC1 : Env :=
  { daemons := [{ reachable := true, pkgs := [(pC1p, pdC1)] }], remotes := [] }

/-- In the C1 environment, the only daemon-served path is the root. -/
theorem envC1_lookup (q : NixPath) (pd : DaemonPkg)
    (h : daemonsLookup envC1.daemons q = .ok (some pd)) : q = pC1p ∧ pd = pdC1 := by
  by_cases hq : pC1p = q
  · subst hq
    simp [envC1, daemonsLookup, plookup] at h
    exact ⟨rfl, h.symm⟩
  · simp [envC1, daemonsLookup, plookup, hq] at h

/-- C1 witness: the no-partial-state statement applied to the concrete
environment whose root references an unresolvable dependency, from the
fresh repository. -/
theorem c1_no_root_refs_on_unresolvable_witness :
    envC1.remotes = [] ∧
    emptyRepo.lookupRef (resultRef pC1d.hash) = none ∧
    (add_closure envC1 0 5 emptyRepo pC1p).1 = .error () ∧
    ((add_closure envC1 0 5 emptyRepo pC1p).2).lookupRef (resultRef pC1p.hash) = none := by
  have hchain : ChainTo envC1 pC1d pC1p :=
    @ChainTo.step envC1 pC1d pC1p pdC1 pC1d rfl (by simp [pdC1]) ChainTo.refl
  have hns : NoSource envC1 pC1d.hash := by
    intro q pd h
    rw [(envC1_lookup q pd h).1]
    decide
  have hclean : HashClean envC1 := by
    intro q1 q2 h1 h2 _
    obtain ⟨pd1, hh1⟩ := h1
    obtain ⟨pd2, hh2⟩ := h2
    rw [(envC1_lookup q1 pd1 hh1).1, (envC1_lookup q2 pd2 hh2).1]
  have hclosed : RefClosed envC1 emptyRepo := by
    intro q pd hq hdl r hr
    simp [emptyRepo, Repo.lookupRef, plookup] at hq
  have h := c1_no_root_refs_on_unresolvable envC1 0 5 emptyRepo pC1p pC1d
    rfl hchain hns hclean hclosed rfl
  exact ⟨rfl, rfl, h.1, h.2.1⟩

/-- The root commit the C1-counterexample peer serves. -/
def cC1root : Oid := Oid.commit (Oid.tree 50) [] fixedSig fixedSig (some "root")

/-- The root metadata the C1-counterexample peer serves: it references
the dependency that nothing can provide. -/
def infoC1root : NarInfo :=
  { storePath := pC1p, key := 50, narSize := 0, deriver := none, references := [pC1d] }

/-- The C1-counterexample peer: it serves both of the root's refs and
nothing for the dependency. -/
def remC1 : Remote :=
  { refs := [(resultRef "p1", cC1root), (narinfoRef "p1", Oid.blob infoC1root)] }

/-- The C1-counterexample environment: the peer above, and no daemons. -/
def envC1peer : Env := { daemons := [], remotes := [remC1] }

/-- C1 counterexample: with a Git peer that serves the root's refs but
not the unresolvable dependency's, `fetch_from_remote` writes both
`refs/<H_root>/result` and `refs/<H_root>/narinfo` locally, and only then
does the breadth-first dependency walk fail (`get_dep_ids` on the
dependency's missing narinfo), so `add_closure` fails *with both root
refs written* — refuting "neither ref is written for P's hash H". The
last three conjuncts record the claim's premise: the dependency has no
local ref, no daemon exists, and the peer has no ref for it. -/
theorem c1_peer_fetch_leaves_root_refs_on_failure :
    (add_closure envC1peer 0 3 emptyRepo pC1p).1 = .error () ∧
    ((add_closure envC1peer 0 3 emptyRepo pC1p).2).lookupRef (resultRef pC1p.hash) =
      some cC1root ∧
    (((add_closure envC1peer 0 3 emptyRepo pC1p).2).lookupRef
      (narinfoRef pC1p.hash)).isSome = true ∧
    emptyRepo.lookupRef (resultRef pC1d.hash) = none ∧
    envC1peer.daemons = [] ∧
    remC1.refs.filter
      (fun e => decide (e.1 = resultRef pC1d.hash ∨ e.1 = narinfoRef pC1d.hash)) = [] :=
  ⟨rfl, rfl, rfl, rfl, rfl, rfl⟩

end Gachix
